import Mathlib

/-!
Verification development for `meeting`, a command-line meeting-time logger
(`src/main.rs`).  The program appends JSON-encoded records
(`Meeting { timestamp: DateTime<Utc>, length: u32 }`) to a flat log file, one
record per line, and reports records whose local calendar date falls in an
inclusive date range, together with their total duration in hours.

The embedding below models:
  * civil calendar dates (`CalDate`, chrono `NaiveDate`) and second-precision
    civil datetimes (`DT`, chrono's `NaiveDateTime` as stored in
    `DateTime<Utc>`);
  * the line codec: `encodeMeeting` is the exact compact line produced by
    `serde_json::to_writer` for a `Meeting` (chrono serializes `DateTime<Utc>`
    in RFC 3339 form `YYYY-MM-DDTHH:MM:SSZ`), and `parse_meeting` is the
    decoder (`serde_json::from_str::<Meeting>(s).ok()`) restricted to that
    canonical grammar, including the field-validity checks chrono performs;
  * the local timezone as an abstract offset map plus the civil lookup used by
    `TimeZone::from_local_date` / `from_local_datetime`;
  * `Meeting::today`, `Meeting::is_within_range`, `to_local_date`,
    `load_records`, `print_records`, `list`/`list_range`/`list_date`/
    `list_today`, and the append performed by `log`.

Machine integers: `length`/`start` are Rust `u32`; they are modeled as `Nat`
with explicit `< 2 ^ 32` bounds where the width matters.  The `f64` division
`minutes / 60.0` and the `{:.1}` rendering in `print_records` are modeled
exactly over `ℚ`: `fl53` rounds to the nearest 53-bit-significand binary value
(IEEE double, round half to even) and the printed digit string is the
half-to-even one-decimal rendering of that value, as Rust's float formatting
produces.
-/

/-- Civil calendar date (chrono `NaiveDate`): year, month (1-12), day (1-31).
`Ord` on `NaiveDate` is chronological, i.e. lexicographic on (year, month,
day) for valid dates. -/
structure CalDate where
  year : Int
  month : Nat
  day : Nat
deriving DecidableEq, Repr

/-- Gregorian leap-year rule, as chrono implements it. -/
def isLeapYear (y : Int) : Bool :=
  y % 4 = 0 && (y % 100 != 0 || y % 400 = 0)

/-- Number of days in a month of a given year (Gregorian calendar). -/
def daysInMonth (y : Int) (m : Nat) : Nat :=
  match m with
  | 1 => 31
  | 2 => if isLeapYear y then 29 else 28
  | 3 => 31
  | 4 => 30
  | 5 => 31
  | 6 => 30
  | 7 => 31
  | 8 => 31
  | 9 => 30
  | 10 => 31
  | 11 => 30
  | 12 => 31
  | _ => 0

/-- A `CalDate` that chrono's `NaiveDate` could hold. -/
def validDateB (d : CalDate) : Bool :=
  decide (1 ≤ d.month) && decide (d.month ≤ 12) &&
    decide (1 ≤ d.day) && decide (d.day ≤ daysInMonth d.year d.month)

/-- Calendar successor of a date (roll day, then month, then year). -/
def nextDate (d : CalDate) : CalDate :=
  if d.day < daysInMonth d.year d.month then ⟨d.year, d.month, d.day + 1⟩
  else if d.month < 12 then ⟨d.year, d.month + 1, 1⟩
  else ⟨d.year + 1, 1, 1⟩

/-- Calendar predecessor of a date. -/
def prevDate (d : CalDate) : CalDate :=
  if 1 < d.day then ⟨d.year, d.month, d.day - 1⟩
  else if 1 < d.month then ⟨d.year, d.month - 1, daysInMonth d.year (d.month - 1)⟩
  else ⟨d.year - 1, 12, 31⟩

/-- Boolean lexicographic comparison on calendar dates, mirroring chrono's
derived `Ord` on `NaiveDate` (chronological order on valid dates). -/
def calLE (a b : CalDate) : Bool :=
  if a.year < b.year then true
  else if b.year < a.year then false
  else if a.month < b.month then true
  else if b.month < a.month then false
  else decide (a.day ≤ b.day)

/-- The specification-side order on calendar dates: plain lexicographic
comparison of (year, month, day). -/
def CalDate.le (a b : CalDate) : Prop :=
  a.year < b.year ∨
    (a.year = b.year ∧ (a.month < b.month ∨ (a.month = b.month ∧ a.day ≤ b.day)))

/-- Second-precision civil datetime (the payload of chrono's `DateTime<Utc>`
for the records this program writes: `and_hms(start, 0, 0)` never produces
sub-second precision).  Chronological order is lexicographic on
(date, hour, minute, second). -/
structure DT where
  date : CalDate
  hour : Nat
  minute : Nat
  second : Nat
deriving DecidableEq, Repr

/-- Field validity of a civil datetime, as chrono enforces on construction
and on RFC 3339 parse. -/
def validDTB (dt : DT) : Bool :=
  validDateB dt.date && decide (dt.hour ≤ 23) &&
    decide (dt.minute ≤ 59) && decide (dt.second ≤ 59)

/-- Boolean chronological comparison of civil datetimes (chrono `Ord` on the
naive datetime inside `DateTime<Utc>`). -/
def dtLE (a b : DT) : Bool :=
  if a.date.year < b.date.year then true
  else if b.date.year < a.date.year then false
  else if a.date.month < b.date.month then true
  else if b.date.month < a.date.month then false
  else if a.date.day < b.date.day then true
  else if b.date.day < a.date.day then false
  else if a.hour < b.hour then true
  else if b.hour < a.hour then false
  else if a.minute < b.minute then true
  else if b.minute < a.minute then false
  else decide (a.second ≤ b.second)

/-- The persisted record (`struct Meeting { timestamp: DateTime<Utc>,
length: u32 }`). -/
structure Meeting where
  timestamp : DT
  length : Nat
deriving DecidableEq, Repr

/-- A `Meeting` value representable in the Rust program: a valid chrono
datetime with an RFC 3339 four-digit year and a `u32` length. -/
@[reducible] def Meeting.Valid (m : Meeting) : Prop :=
  validDTB m.timestamp = true ∧ 0 ≤ m.timestamp.date.year ∧
    m.timestamp.date.year ≤ 9999 ∧ m.length < 4294967296

/-! ### Character-level codec

`log` writes `serde_json::to_writer(&mut log, &meeting)` followed by `"\n"`;
`parse_meeting` is `serde_json::from_str(s).ok()`.  The encoder below
produces the exact compact byte line serde_json emits for this struct; the
decoder accepts that canonical grammar (serde_json's leniencies such as
reordered fields or extra whitespace are outside the encoder's image and are
not modeled — all inputs the program itself writes are covered, and anything
else the model rejects, as serde_json rejects garbage). -/

/-- Decimal digit to character. -/
def d2c (d : Nat) : Char := Char.ofNat (48 + d)

/-- Character to decimal digit value. -/
def c2d (c : Char) : Nat := c.toNat - 48

/-- Is the character an ASCII digit. -/
def isDig (c : Char) : Bool := decide (48 ≤ c.toNat) && decide (c.toNat ≤ 57)

/-- Two-digit zero-padded rendering (chrono `%m`, `%d`, `%H`, `%M`, `%S`). -/
def pad2 (n : Nat) : List Char := [d2c (n / 10), d2c (n % 10)]

/-- Four-digit zero-padded rendering (chrono `%Y` for years 0-9999). -/
def pad4 (n : Nat) : List Char :=
  [d2c (n / 1000), d2c (n / 100 % 10), d2c (n / 10 % 10), d2c (n % 10)]

/-- Fuel-driven digit renderer (structural recursion so that concrete values
reduce; the fuel is always sufficient). -/
def natToCharsAux : Nat → Nat → List Char
  | 0, _ => []
  | fuel + 1, n =>
    if n < 10 then [d2c n] else natToCharsAux fuel (n / 10) ++ [d2c (n % 10)]

/-- Decimal rendering of a natural number, no leading zeros (serde_json
integer output). -/
def natToChars (n : Nat) : List Char := natToCharsAux (n + 1) n

/-- Parse exactly two ASCII digits. -/
def parse2 (l : List Char) : Option (Nat × List Char) :=
  match l with
  | a :: b :: rest =>
    if isDig a && isDig b then some (c2d a * 10 + c2d b, rest) else none
  | _ => none

/-- Parse exactly four ASCII digits. -/
def parse4 (l : List Char) : Option (Nat × List Char) :=
  match parse2 l with
  | some (hi, r) =>
    match parse2 r with
    | some (lo, r2) => some (hi * 100 + lo, r2)
    | none => none
  | none => none

/-- Require a literal character sequence at the head of the input. -/
def expects : List Char → List Char → Option (List Char)
  | [], l => some l
  | _ :: _, [] => none
  | c :: cs, x :: xs => if x = c then expects cs xs else none

/-- Accumulating decimal-number parser: consume digits while present. -/
def parseNatAux : Nat → List Char → Nat × List Char
  | acc, [] => (acc, [])
  | acc, c :: rest =>
    if isDig c then parseNatAux (acc * 10 + c2d c) rest else (acc, c :: rest)

/-- Parse a decimal natural number (at least one digit required). -/
def parseNat (l : List Char) : Option (Nat × List Char) :=
  match l with
  | c :: _ => if isDig c then some (parseNatAux 0 l) else none
  | [] => none

/-- RFC 3339 rendering of the UTC timestamp, as chrono's serde serializer
emits it for a whole-second `DateTime<Utc>`: `YYYY-MM-DDTHH:MM:SSZ`. -/
def encodeDT (dt : DT) : List Char :=
  pad4 dt.date.year.toNat ++ '-' :: pad2 dt.date.month ++ '-' :: pad2 dt.date.day ++
    'T' :: pad2 dt.hour ++ ':' :: pad2 dt.minute ++ ':' :: pad2 dt.second ++ ['Z']

/-- Parse the RFC 3339 timestamp (canonical `Z`-suffixed whole-second form). -/
def parseDT (l : List Char) : Option (DT × List Char) := do
  let (y, r) ← parse4 l
  let r ← expects ['-'] r
  let (mo, r) ← parse2 r
  let r ← expects ['-'] r
  let (d, r) ← parse2 r
  let r ← expects ['T'] r
  let (h, r) ← parse2 r
  let r ← expects [':'] r
  let (mi, r) ← parse2 r
  let r ← expects [':'] r
  let (s, r) ← parse2 r
  let r ← expects ['Z'] r
  pure (⟨⟨Int.ofNat y, mo, d⟩, h, mi, s⟩, r)

/-- The literal opening of the serialized record line. -/
def litTS : List Char := ("\x7b\"timestamp\":\"").data

/-- The literal between the timestamp string and the length field. -/
def litLen : List Char := ("\",\"length\":").data

/-- The exact line `serde_json::to_writer` produces for a `Meeting` (without
the trailing newline `log` writes separately). -/
def encodeMeeting (m : Meeting) : List Char :=
  litTS ++ encodeDT m.timestamp ++ litLen ++ natToChars m.length ++ ['\x7d']

/-- `fn parse_meeting(s: &str) -> Option<Meeting> \x7b
serde_json::from_str(s).ok() \x7d`: decode one line, `none` on any malformed
input.  Field validity (calendar bounds, `u32` range) is checked as chrono
and serde do on deserialization. -/
def parse_meeting (l : List Char) : Option Meeting := do
  let r ← expects litTS l
  let (dt, r) ← parseDT r
  let r ← expects litLen r
  let (len, r) ← parseNat r
  let r ← expects ['\x7d'] r
  match r with
  | [] =>
    if validDTB dt && decide (len < 4294967296) then pure ⟨dt, len⟩ else none
  | _ :: _ => none

/-- A concrete valid record used as the round-trip witness. -/
def mtgC1 : Meeting := ⟨⟨⟨2024, 3, 5⟩, 13, 0, 0⟩, 60⟩

/-! ### Timezone model and program operations

The local timezone (`chrono::Local`) is an environment parameter: an offset
map for UTC→local conversion (`TimeZone::offset_from_utc_datetime`) plus the
civil lookups `from_local_date` / `from_local_datetime`, which can resolve to
no instant, one instant, or two (DST ambiguity).  `TZ.WF` records the facts
chrono guarantees about these: offsets are strictly within one day, a lookup
result carries the queried naive date, and in the ambiguous case the earliest
candidate (the one with the larger UTC offset, hence the earlier instant for
the same civil time) comes first. -/

/-- chrono `LocalResult`. -/
inductive LocalRes (α : Type) where
  | absent : LocalRes α
  | single (a : α) : LocalRes α
  | ambiguous (fst snd : α) : LocalRes α
deriving DecidableEq, Repr

/-- chrono `Date<Local>`: a local naive date together with its UTC offset in
seconds.  `Ord`/`Eq` on `Date<Tz>` compare only the naive date. -/
structure LDate where
  naive : CalDate
  off : Int
deriving DecidableEq, Repr

/-- Rust `std::cmp::min` at type `Date<Local>`: returns the first argument
when the comparison (on naive dates) says they are equal. -/
def rustMinLDate (a b : LDate) : LDate :=
  if calLE a.naive b.naive then a else b

/-- The local timezone environment. -/
structure TZ where
  offsetFromUtc : DT → Int
  fromLocalDate : CalDate → LocalRes LDate
  fromLocalDT : DT → LocalRes Int

/-- Facts chrono guarantees about a timezone's lookups. -/
def TZ.WF (tz : TZ) : Prop :=
  (∀ dt, -86400 < tz.offsetFromUtc dt ∧ tz.offsetFromUtc dt < 86400) ∧
    (∀ d ld, tz.fromLocalDate d = .single ld → ld.naive = d) ∧
    (∀ d l r, tz.fromLocalDate d = .ambiguous l r →
      l.naive = d ∧ r.naive = d ∧ r.off ≤ l.off)

/-- Seconds elapsed since civil midnight. -/
def secOfDay (dt : DT) : Int := dt.hour * 3600 + dt.minute * 60 + dt.second

/-- Rebuild a civil datetime from a date and a seconds-of-day value. -/
def splitSod (date : CalDate) (s : Int) : DT :=
  ⟨date, (s / 3600).toNat, (s % 3600 / 60).toNat, (s % 60).toNat⟩

/-- Shift a civil datetime by `delta` seconds (`|delta| < 86400`, as all
timezone offsets are): calendar arithmetic rolls at most one day. -/
def addSecs (dt : DT) (delta : Int) : DT :=
  if secOfDay dt + delta < 0 then
    splitSod (prevDate dt.date) (secOfDay dt + delta + 86400)
  else if secOfDay dt + delta < 86400 then splitSod dt.date (secOfDay dt + delta)
  else splitSod (nextDate dt.date) (secOfDay dt + delta - 86400)

/-- `timestamp.with_timezone(&Local)`: the local civil datetime of a UTC
instant. -/
def localOf (tz : TZ) (dt : DT) : DT := addSecs dt (tz.offsetFromUtc dt)

/-- `timestamp.with_timezone(&Local).date()`: the local calendar date. -/
def localDate (tz : TZ) (dt : DT) : CalDate := (localOf tz dt).date

/-- `Meeting::is_within_range`: `let compare =
self.timestamp.with_timezone(&Local).date(); compare >= start && compare <=
end` (chrono `Date` comparison is on the naive dates). -/
def Meeting.is_within_range (tz : TZ) (m : Meeting) (start endD : LDate) : Bool :=
  calLE start.naive (localDate tz m.timestamp) &&
    calLE (localDate tz m.timestamp) endD.naive

/-- `fn to_local_date(date: NaiveDate) -> AppResult<Date<Local>>`: match on
`Local.from_local_date(&date)` — `None ⇒ Err("Invalid date")`, `Single(d) ⇒
Ok(d)`, `Ambiguous(l, r) ⇒ Ok(cmp::min(l, r))`. -/
def to_local_date (tz : TZ) (date : CalDate) : Except String LDate :=
  match tz.fromLocalDate date with
  | .absent => Except.error ("Invalid date")
  | .single d => Except.ok d
  | .ambiguous l r => Except.ok (rustMinLDate l r)

/-- `Meeting::today(start, length)`: `Local::today().and_hms(start, 0, 0)
.with_timezone(&Utc)`.  `and_hms` is `and_hms_opt(..).expect(..)`:
`NaiveTime::from_hms_opt` fails for `start >= 24`, then `and_time` resolves
the local civil datetime via `from_local_datetime(..).single()` (failing on a
DST gap or ambiguity); the `expect` panic is modeled as `none`.
`with_timezone(&Utc)` subtracts the resolved offset. -/
def Meeting.today (tz : TZ) (todayD : LDate) (start length : Nat) :
    Option Meeting :=
  if 24 ≤ start then none
  else
    match tz.fromLocalDT ⟨todayD.naive, start, 0, 0⟩ with
    | .single off => some ⟨addSecs ⟨todayD.naive, start, 0, 0⟩ (-off), length⟩
    | _ => none

/-! ### Log store: reading lines, sorting, and the append step -/

/-- Split a character list at every newline (keeping a trailing empty
segment). -/
def splitNL : List Char → List (List Char)
  | [] => [[]]
  | c :: rest =>
    match splitNL rest with
    | [] => [[c]]
    | h :: t => if c = '\n' then [] :: h :: t else (c :: h) :: t

/-- Drop a single trailing carriage return, as Rust's `str::lines` does. -/
def stripCR (l : List Char) : List Char :=
  if l.getLast? = some '\r' then l.dropLast else l

/-- Rust `str::lines()`: split on `'\n'`, no trailing empty line for a
newline-terminated string, and strip one trailing `'\r'` per line. -/
def linesOf (content : List Char) : List (List Char) :=
  let parts := splitNL content
  let parts := if parts.getLast? = some [] then parts.dropLast else parts
  parts.map stripCR

/-- The sort relation of `records.sort_by_key(|x| x.timestamp)`: comparison
by timestamp only. -/
def meetingLE (a b : Meeting) : Prop := dtLE a.timestamp b.timestamp = true

instance : DecidableRel meetingLE :=
  fun a b => inferInstanceAs (Decidable (dtLE a.timestamp b.timestamp = true))

/-- `fn load_records(f)`: read the file, decode each line with
`parse_meeting` (dropping failures), keep the records matching `f`, then
`sort_by_key(|x| x.timestamp)` — a stable sort, modeled by insertion sort.
The file's content is a parameter (the `fs::read_to_string` I/O error path is
orthogonal to the claims and not modeled). -/
def load_records (content : List Char) (f : Meeting → Bool) : List Meeting :=
  List.insertionSort meetingLE (((linesOf content).filterMap parse_meeting).filter f)

/-! ### Output: `Display for Meeting` and `print_records`

`print_records` prints each record (`"{}: {} minutes"` with the local time
formatted `%F %R`) while accumulating `minutes: u32`, then prints
`"Total hours: {:.1}", f64::from(minutes) / 60.0`.  The `f64` computation is
modeled exactly over `ℚ`: `fl53` is IEEE-double rounding (53-bit significand,
round half to even) of the exact quotient, and Rust's `{:.1}` renders the
half-to-even one-decimal rounding of that double's exact value. -/

/-- Round a rational to the nearest integer, ties to even. -/
def rhe (x : ℚ) : ℤ :=
  if x - ⌊x⌋ < 1 / 2 then ⌊x⌋
  else if 1 / 2 < x - ⌊x⌋ then ⌊x⌋ + 1
  else if 2 ∣ ⌊x⌋ then ⌊x⌋ else ⌊x⌋ + 1

/-- Round a positive rational to the nearest binary value with a 53-bit
significand (IEEE `f64` nearest-even rounding; our inputs are far from the
subnormal and overflow ranges). -/
def fl53 (q : ℚ) : ℚ :=
  if q = 0 then 0
  else ((rhe (q * 2 ^ (52 - Int.log 2 q)) : ℚ) * 2 ^ (Int.log 2 q - 52))

/-- The integer number of tenths printed by `{:.1}` for
`f64::from(m) / 60.0`. -/
def tenths (m : Nat) : ℤ := rhe (10 * fl53 ((m : ℚ) / 60))

/-- The full total line: `"Total hours: {:.1}"`. -/
def totalLine (m : Nat) : String :=
  String.mk (("Total hours: ").data ++ natToChars ((tenths m).toNat / 10) ++
    '.' :: [d2c ((tenths m).toNat % 10)])

/-- Sum of the `length` fields, as the `minutes` accumulator computes it. -/
def totalMinutes (recs : List Meeting) : Nat :=
  recs.foldl (fun acc r => acc + r.length) 0

/-- `Display for Meeting`: `"{}: {} minutes"` with the timestamp shown in
local time as `%F %R` (`YYYY-MM-DD HH:MM`). -/
def displayMeeting (tz : TZ) (m : Meeting) : String :=
  String.mk (pad4 (localOf tz m.timestamp).date.year.toNat ++
    '-' :: pad2 (localOf tz m.timestamp).date.month ++
    '-' :: pad2 (localOf tz m.timestamp).date.day ++
    ' ' :: pad2 (localOf tz m.timestamp).hour ++
    ':' :: pad2 (localOf tz m.timestamp).minute ++
    (": ").data ++ natToChars m.length ++ (" minutes").data)

/-- The print loop of `print_records`: one display line per record while
accumulating minutes, then the total line. -/
def printAux (tz : TZ) : List Meeting → Nat → List String
  | [], acc => [totalLine acc]
  | r :: rest, acc => displayMeeting tz r :: printAux tz rest (acc + r.length)

/-- `fn print_records(records)`: the lines written to stdout. -/
def print_records (tz : TZ) (recs : List Meeting) : List String :=
  printAux tz recs 0

/-! ### The two subcommands -/

/-- The process environment of one invocation: the local timezone,
`Local::today()`, and the current content of `~/.meetings`. -/
structure Env where
  tz : TZ
  todayD : LDate
  content : List Char

/-- `fn list_range(start, end)`. -/
def list_range (env : Env) (s e : CalDate) : Except String (List String) := do
  let s' ← to_local_date env.tz s
  let e' ← to_local_date env.tz e
  pure (print_records env.tz (load_records env.content
    (fun x => Meeting.is_within_range env.tz x s' e')))

/-- `fn list_date(date)`. -/
def list_date (env : Env) (d : CalDate) : Except String (List String) := do
  let d' ← to_local_date env.tz d
  pure (print_records env.tz (load_records env.content
    (fun x => Meeting.is_within_range env.tz x d' d')))

/-- `fn list_today()`: uses `Local::today()` directly as both bounds. -/
def list_today (env : Env) : Except String (List String) :=
  pure (print_records env.tz (load_records env.content
    (fun x => Meeting.is_within_range env.tz x env.todayD env.todayD)))

/-- `fn list(start, end)`: dispatch on the optional date arguments.  The
`(None, Some _)` shape is unreachable through positional argument parsing
(the source marks it `unreachable!`). -/
def list (env : Env) :
    Option CalDate → Option CalDate → Except String (List String)
  | some s, some e => list_range env s e
  | some s, none => list_date env s
  | none, none => list_today env
  | none, some _ => Except.error ("unreachable")

/-- `fn log(start, length)` as a transition on the log file's byte content:
build today's meeting (panic modeled as `none`), then append its serde_json
line plus `"\n"` to the file opened in create-if-absent append mode. -/
def logAppend (env : Env) (start length : Nat) (st : List Char) :
    Option (List Char) :=
  (Meeting.today env.tz env.todayD start length).map
    (fun m => st ++ encodeMeeting m ++ ['\n'])

/-- The program's command surface. -/
inductive Cmd where
  | log (start length : Nat) : Cmd
  | list (s e : Option CalDate) : Cmd

/-- Effect of one invocation on the stored log file: `log` appends, `list`
only reads. -/
def runCmd (env : Env) (c : Cmd) (st : List Char) : Option (List Char) :=
  match c with
  | .log s l => logAppend env s l st
  | .list _ _ => some st

/-- A concrete UTC-like timezone (offset 0, every civil lookup unique), used
to instantiate theorems with hypotheses. -/
def utcTZ : TZ :=
  ⟨fun _ => 0, fun d => .single ⟨d, 0⟩, fun _ => .single 0⟩

/-- One second later, on civil UTC datetimes (the successor instant). -/
def succDT (dt : DT) : DT :=
  if dt.second < 59 then ⟨dt.date, dt.hour, dt.minute, dt.second + 1⟩
  else if dt.minute < 59 then ⟨dt.date, dt.hour, dt.minute + 1, 0⟩
  else if dt.hour < 23 then ⟨dt.date, dt.hour + 1, 0, 0⟩
  else ⟨nextDate dt.date, 0, 0, 0⟩

/-- A timezone whose civil lookup is always ambiguous between the same date
at offsets +3600 and 0 (a DST fall-back shape), for witnesses. -/
def ambTZ : TZ :=
  ⟨fun _ => 0, fun d => .ambiguous ⟨d, 3600⟩ ⟨d, 0⟩, fun _ => .single 0⟩

/-- A timezone whose civil lookup always fails (a DST gap shape), for
witnesses. -/
def gapTZ : TZ := ⟨fun _ => 0, fun _ => .absent, fun _ => .absent⟩

/-- The local end-of-day record used in the C2 witness. -/
def mEodW : Meeting := ⟨⟨⟨2024, 1, 1⟩, 23, 59, 59⟩, 30⟩

/-- One second after `mEodW`, used in the C2 witness. -/
def mNextW : Meeting := ⟨succDT mEodW.timestamp, 30⟩

/-- A record at local midnight of 2024-01-01, used in the C2 witness. -/
def mMidW : Meeting := ⟨⟨⟨2024, 1, 1⟩, 0, 0, 0⟩, 30⟩

/-- The query date 2024-01-01 as a `Date<Local>`, used in the C2 witness. -/
def ldW : LDate := ⟨⟨2024, 1, 1⟩, 0⟩

/-! ### Sorting: order facts and stability -/

/-- The specification-side chronological order on civil datetimes. -/
def DT.le (a b : DT) : Prop :=
  a.date.year < b.date.year ∨
    (a.date.year = b.date.year ∧
      (a.date.month < b.date.month ∨
        (a.date.month = b.date.month ∧
          (a.date.day < b.date.day ∨
            (a.date.day = b.date.day ∧
              (a.hour < b.hour ∨
                (a.hour = b.hour ∧
                  (a.minute < b.minute ∨
                    (a.minute = b.minute ∧ a.second ≤ b.second)))))))))

/-- A valid record used in the lenient-decode example. -/
def mtgC4 : Meeting := ⟨⟨⟨2023, 12, 31⟩, 9, 30, 0⟩, 45⟩

/-- A log file with one well-formed line and one garbage line. -/
def contentC4 : List Char :=
  encodeMeeting mtgC4 ++ '\n' :: ("garbage").data

/-- The environment used in several witnesses: UTC-like timezone, today =
2024-01-02, empty log file. -/
def envW : Env := ⟨utcTZ, ⟨⟨2024, 1, 2⟩, 0⟩, []⟩

/-- A one-hour meeting at 13:00, used in the C5 witness. -/
def mtgW : Meeting := ⟨⟨⟨2024, 1, 2⟩, 13, 0, 0⟩, 60⟩

theorem natToCharsAux_irrel : ∀ f1 n, n < f1 → ∀ f2, n < f2 →
    natToCharsAux f1 n = natToCharsAux f2 n := by
  intro f1
  induction f1 with
  | zero => omega
  | succ f ih =>
    intro n hn f2 hn2
    cases f2 with
    | zero => omega
    | succ g =>
      simp only [natToCharsAux]
      by_cases h : n < 10
      · simp [h]
      · have hd : n / 10 < n := Nat.div_lt_self (by omega) (by omega)
        simp [h, ih (n / 10) (by omega) g (by omega)]

theorem natToChars_eq (n : Nat) :
    natToChars n =
      if n < 10 then [d2c n] else natToChars (n / 10) ++ [d2c (n % 10)] := by
  unfold natToChars
  rw [natToCharsAux]
  by_cases h : n < 10
  · simp [h]
  · have hd : n / 10 < n := Nat.div_lt_self (by omega) (by omega)
    simp only [if_neg h]
    rw [natToCharsAux_irrel n (n / 10) (by omega) (n / 10 + 1) (by omega)]

/-! ### Codec round-trip lemmas -/

theorem expects_append (lit r : List Char) : expects lit (lit ++ r) = some r := by
  induction lit with
  | nil => rfl
  | cons c cs ih => simp [expects, ih]

theorem d2c_digit : ∀ d : Nat, d < 10 → isDig (d2c d) = true ∧ c2d (d2c d) = d := by
  decide

theorem parse2_pad2 (n : Nat) (r : List Char) (h : n < 100) :
    parse2 (pad2 n ++ r) = some (n, r) := by
  have h1 := d2c_digit (n / 10) (by omega)
  have h2 := d2c_digit (n % 10) (by omega)
  simp only [pad2, List.cons_append, List.nil_append, parse2, h1.1, h2.1,
    Bool.and_self, if_pos, h1.2, h2.2]
  have : n / 10 * 10 + n % 10 = n := by omega
  simp [this]

theorem pad4_eq (n : Nat) : pad4 n = pad2 (n / 100) ++ pad2 (n % 100) := by
  simp only [pad4, pad2, List.cons_append, List.nil_append]
  have e1 : n / 100 / 10 = n / 1000 := by omega
  have e2 : n / 100 % 10 = n / 100 % 10 := rfl
  have e3 : n % 100 / 10 = n / 10 % 10 := by omega
  have e4 : n % 100 % 10 = n % 10 := by omega
  rw [e1, e3, e4]

theorem parse4_pad4 (n : Nat) (r : List Char) (h : n < 10000) :
    parse4 (pad4 n ++ r) = some (n, r) := by
  rw [pad4_eq, List.append_assoc, parse4, parse2_pad2 (n / 100) _ (by omega)]
  simp only [parse2_pad2 (n % 100) _ (by omega)]
  have : n / 100 * 100 + n % 100 = n := by omega
  rw [this]

theorem natToChars_head (n : Nat) :
    ∃ c t, natToChars n = c :: t ∧ isDig c = true := by
  induction n using Nat.strong_induction_on with
  | _ n ih =>
    rw [natToChars_eq]
    by_cases h : n < 10
    · exact ⟨d2c n, [], by simp [h], (d2c_digit n h).1⟩
    · obtain ⟨c, t, hct, hd⟩ := ih (n / 10) (Nat.div_lt_self (by omega) (by omega))
      exact ⟨c, t ++ [d2c (n % 10)], by simp [h, hct], hd⟩

theorem accum_step (B n : Nat) : (B + n / 10) * 10 + n % 10 = B * 10 + n := by
  omega

theorem parseNatAux_natToChars (n : Nat) : ∀ acc r,
    parseNatAux acc (natToChars n ++ r) =
      parseNatAux (acc * 10 ^ (natToChars n).length + n) r := by
  induction n using Nat.strong_induction_on with
  | _ n ih =>
    intro acc r
    by_cases h : n < 10
    · rw [natToChars_eq, if_pos h]
      simp [parseNatAux, (d2c_digit n h).1, (d2c_digit n h).2]
    · rw [natToChars_eq, if_neg h, List.append_assoc, List.singleton_append,
        ih (n / 10) (Nat.div_lt_self (by omega) (by omega))]
      simp only [parseNatAux, (d2c_digit (n % 10) (by omega)).1,
        (d2c_digit (n % 10) (by omega)).2, if_pos]
      rw [accum_step, List.length_append, List.length_singleton, pow_succ,
        ← mul_assoc]

theorem parseNat_natToChars (n : Nat) (r : List Char)
    (hr : ∀ c t, r = c :: t → isDig c = false) :
    parseNat (natToChars n ++ r) = some (n, r) := by
  obtain ⟨c, t, hct, hd⟩ := natToChars_head n
  rw [hct, List.cons_append, parseNat]
  simp only [hd, if_pos]
  rw [← List.cons_append, ← hct, parseNatAux_natToChars]
  simp only [Nat.zero_mul, Nat.zero_add]
  cases r with
  | nil => simp [parseNatAux]
  | cons c' t' => simp [parseNatAux, hr c' t' rfl]

theorem daysInMonth_le (y : Int) (m : Nat) : daysInMonth y m ≤ 31 := by
  unfold daysInMonth
  split <;> (try split) <;> omega

theorem parseDT_encodeDT (dt : DT) (r : List Char)
    (hy0 : 0 ≤ dt.date.year) (hy : dt.date.year ≤ 9999) (hmo : dt.date.month ≤ 99)
    (hd : dt.date.day ≤ 99) (hh : dt.hour ≤ 99) (hmi : dt.minute ≤ 99)
    (hs : dt.second ≤ 99) :
    parseDT (encodeDT dt ++ r) = some (dt, r) := by
  obtain ⟨⟨y, mo, d⟩, h, mi, s⟩ := dt
  simp only at hy0 hy hmo hd hh hmi hs
  have h4 : ∀ l, parse4 (pad4 y.toNat ++ l) = some (y.toNat, l) :=
    fun l => parse4_pad4 _ _ (by omega)
  have hmo2 : ∀ l, parse2 (pad2 mo ++ l) = some (mo, l) :=
    fun l => parse2_pad2 _ _ (by omega)
  have hd2 : ∀ l, parse2 (pad2 d ++ l) = some (d, l) :=
    fun l => parse2_pad2 _ _ (by omega)
  have hh2 : ∀ l, parse2 (pad2 h ++ l) = some (h, l) :=
    fun l => parse2_pad2 _ _ (by omega)
  have hm2 : ∀ l, parse2 (pad2 mi ++ l) = some (mi, l) :=
    fun l => parse2_pad2 _ _ (by omega)
  have hs2 : ∀ l, parse2 (pad2 s ++ l) = some (s, l) :=
    fun l => parse2_pad2 _ _ (by omega)
  simp only [encodeDT, List.append_assoc, List.cons_append, parseDT, h4, hmo2,
    hd2, hh2, hm2, hs2, expects, if_pos, Option.bind_eq_bind, Option.some_bind,
    Option.pure_def]
  simp [Int.toNat_of_nonneg hy0]

/-- C1: Record codec round-trip: for every meeting record (a valid UTC
timestamp and a non-negative `u32` length), decoding the encoded line —
`parse_meeting` applied to the serde_json serialization of the `Meeting` —
returns `some` of a record with the original timestamp and duration
exactly. -/
theorem c1_codec_round_trip (m : Meeting) (hv : m.Valid) :
    parse_meeting (encodeMeeting m) = some m := by
  have hdtB := hv.1
  have hy0 := hv.2.1
  have hy := hv.2.2.1
  have hlen := hv.2.2.2
  have harith := hdtB
  simp only [validDTB, validDateB, Bool.and_eq_true, decide_eq_true_eq] at harith
  obtain ⟨⟨⟨⟨⟨⟨hmo1, hmo12⟩, hd1⟩, hdmax⟩, hh23⟩, hm59⟩, hs59⟩ := harith
  have hdim := daysInMonth_le m.timestamp.date.year m.timestamp.date.month
  unfold encodeMeeting parse_meeting
  simp only [List.append_assoc]
  rw [expects_append]
  simp only [Option.bind_eq_bind, Option.some_bind]
  rw [parseDT_encodeDT _ _ hy0 hy (by omega) (by omega) (by omega) (by omega)
    (by omega)]
  simp only [Option.some_bind]
  rw [expects_append]
  simp only [Option.some_bind]
  rw [parseNat_natToChars _ _ (by intro c t hct; cases hct; decide)]
  simp only [Option.some_bind, expects, if_pos, Option.pure_def]
  simp [hdtB, hlen]

theorem c1_codec_round_trip_witness :
    mtgC1.Valid ∧ parse_meeting (encodeMeeting mtgC1) = some mtgC1 :=
  ⟨by decide, c1_codec_round_trip mtgC1 (by decide)⟩

/-! ### Order and calendar lemmas -/

theorem calLE_iff (a b : CalDate) : calLE a b = true ↔ CalDate.le a b := by
  unfold calLE CalDate.le
  split_ifs <;> simp <;> omega

theorem calLE_nextDate_false (d e : CalDate) (h : d = nextDate e) :
    calLE d e = false := by
  subst h
  unfold nextDate
  split_ifs with h1 h2 <;>
    (rw [Bool.eq_false_iff, Ne, calLE_iff]; unfold CalDate.le; dsimp only; omega)

theorem nextDate_prevDate (d : CalDate) (hv : validDateB d = true) :
    nextDate (prevDate d) = d := by
  simp only [validDateB, Bool.and_eq_true, decide_eq_true_eq] at hv
  obtain ⟨⟨⟨hmo1, hmo12⟩, hd1⟩, hdmax⟩ := hv
  obtain ⟨y, mo, dy⟩ := d
  dsimp only at hmo1 hmo12 hd1 hdmax
  unfold prevDate
  dsimp only
  split_ifs with h1 h2
  · unfold nextDate
    dsimp only
    rw [if_pos (by omega)]
    simp only [CalDate.mk.injEq, true_and]
    omega
  · unfold nextDate
    dsimp only
    rw [if_neg (by omega), if_pos (by omega)]
    simp only [CalDate.mk.injEq, true_and]
    omega
  · unfold nextDate
    have h12 : mo = 1 := by omega
    have hdy : dy = 1 := by omega
    subst h12 hdy
    dsimp only
    norm_num [daysInMonth]

theorem splitSod_eod (date : CalDate) (s : Int) (e : CalDate) (h0 : 0 ≤ s)
    (h1 : s < 86400) (h : splitSod date s = (⟨e, 23, 59, 59⟩ : DT)) :
    date = e ∧ s = 86399 := by
  unfold splitSod at h
  rw [DT.mk.injEq] at h
  exact ⟨h.1, by omega⟩

theorem splitSod_zero (date : CalDate) : splitSod date 0 = ⟨date, 0, 0, 0⟩ := rfl

theorem succDT_spec (ts : DT) (hvt : validDTB ts = true) :
    (secOfDay ts < 86399 →
      (succDT ts).date = ts.date ∧ secOfDay (succDT ts) = secOfDay ts + 1) ∧
    (secOfDay ts = 86399 →
      (succDT ts).date = nextDate ts.date ∧ secOfDay (succDT ts) = 0) := by
  simp only [validDTB, validDateB, Bool.and_eq_true, decide_eq_true_eq] at hvt
  obtain ⟨⟨⟨⟨⟨⟨hmo1, hmo12⟩, hd1⟩, hdmax⟩, hh23⟩, hm59⟩, hs59⟩ := hvt
  unfold succDT secOfDay
  split_ifs with h1 h2 h3 <;> dsimp only <;> constructor <;> intro hs <;>
    first
    | exact ⟨rfl, by omega⟩
    | (exfalso; omega)

theorem localOf_succ_eod (tz : TZ) (ts : DT) (e : CalDate)
    (hvt : validDTB ts = true)
    (hoff1 : -86400 < tz.offsetFromUtc ts) (hoff2 : tz.offsetFromUtc ts < 86400)
    (hsame : tz.offsetFromUtc (succDT ts) = tz.offsetFromUtc ts)
    (h : localOf tz ts = ⟨e, 23, 59, 59⟩) :
    localOf tz (succDT ts) = ⟨nextDate e, 0, 0, 0⟩ := by
  have hsod : 0 ≤ secOfDay ts ∧ secOfDay ts ≤ 86399 := by
    have hvt2 := hvt
    simp only [validDTB, validDateB, Bool.and_eq_true, decide_eq_true_eq] at hvt2
    unfold secOfDay
    omega
  have hspec := succDT_spec ts hvt
  have hvd : validDateB ts.date = true := by
    simp only [validDTB, Bool.and_eq_true] at hvt
    exact hvt.1.1.1
  set off := tz.offsetFromUtc ts with hoffdef
  rw [localOf, hsame]
  rw [localOf] at h
  unfold addSecs at h
  split_ifs at h with h1 h2
  · obtain ⟨hdate, hval⟩ := splitSod_eod _ _ _ (by omega) (by omega) h
    have hlt : secOfDay ts < 86399 := by omega
    obtain ⟨hd2, hs2⟩ := hspec.1 hlt
    unfold addSecs
    rw [hs2, hd2, if_neg (by omega), if_pos (by omega)]
    have hz : secOfDay ts + 1 + off = 0 := by omega
    rw [hz, splitSod_zero, ← hdate, nextDate_prevDate _ hvd]
  · obtain ⟨hdate, hval⟩ := splitSod_eod _ _ _ (by omega) (by omega) h
    by_cases hc : secOfDay ts = 86399
    · obtain ⟨hd2, hs2⟩ := hspec.2 hc
      have hoffz : off = 0 := by omega
      unfold addSecs
      rw [hs2, hd2, hoffz, if_neg (by omega), if_pos (by omega)]
      norm_num [splitSod_zero, hdate]
    · obtain ⟨hd2, hs2⟩ := hspec.1 (by omega)
      unfold addSecs
      rw [hs2, hd2, if_neg (by omega), if_neg (by omega)]
      have hz : secOfDay ts + 1 + off - 86400 = 0 := by omega
      rw [hz, splitSod_zero, hdate]
  · exfalso
    obtain ⟨hdate, hval⟩ := splitSod_eod _ _ _ (by omega) (by omega) h
    omega

/-- C2: Date-range filtering is inclusive on both ends over local calendar
dates: a record is included by `is_within_range` iff its timestamp's
local-timezone calendar date `d` satisfies `start ≤ d ≤ end` (lexicographic
calendar order); a record timestamped exactly at local midnight of the end
date is included, and one timestamped one second after local end-of-day of
the end date (the successor instant of a record at local `23:59:59` of the
end date, the offset not changing across that second) is excluded. -/
theorem c2_range_inclusive :
    (∀ (tz : TZ) (m : Meeting) (s e : LDate),
      Meeting.is_within_range tz m s e = true ↔
        CalDate.le s.naive (localDate tz m.timestamp) ∧
          CalDate.le (localDate tz m.timestamp) e.naive) ∧
    (∀ (tz : TZ) (m : Meeting) (s e : LDate),
      localOf tz m.timestamp = ⟨e.naive, 0, 0, 0⟩ →
      CalDate.le s.naive e.naive →
      Meeting.is_within_range tz m s e = true) ∧
    (∀ (tz : TZ) (m m' : Meeting) (s e : LDate),
      validDTB m.timestamp = true →
      -86400 < tz.offsetFromUtc m.timestamp →
      tz.offsetFromUtc m.timestamp < 86400 →
      tz.offsetFromUtc (succDT m.timestamp) = tz.offsetFromUtc m.timestamp →
      localOf tz m.timestamp = ⟨e.naive, 23, 59, 59⟩ →
      m'.timestamp = succDT m.timestamp →
      Meeting.is_within_range tz m' s e = false) := by
  refine ⟨?_, ?_, ?_⟩
  · intro tz m s e
    unfold Meeting.is_within_range
    rw [Bool.and_eq_true, calLE_iff, calLE_iff]
  · intro tz m s e hloc hle
    unfold Meeting.is_within_range localDate
    rw [hloc]
    dsimp only
    rw [Bool.and_eq_true, calLE_iff, calLE_iff]
    exact ⟨hle, by unfold CalDate.le; omega⟩
  · intro tz m m' s e hvt ho1 ho2 hsame hloc hts
    have hsucc := localOf_succ_eod tz m.timestamp e.naive hvt ho1 ho2 hsame hloc
    unfold Meeting.is_within_range localDate
    rw [hts, hsucc]
    dsimp only
    rw [calLE_nextDate_false (nextDate e.naive) e.naive rfl]
    exact Bool.and_false _

theorem c2_range_inclusive_witness :
    Meeting.is_within_range utcTZ mMidW ldW ldW = true ∧
      Meeting.is_within_range utcTZ mNextW ldW ldW = false :=
  ⟨c2_range_inclusive.2.1 utcTZ mMidW ldW ldW (by decide)
      (by unfold CalDate.le; dsimp only [ldW]; omega),
    c2_range_inclusive.2.2 utcTZ mEodW mNextW ldW ldW (by decide) (by decide)
      (by decide) rfl (by decide) rfl⟩

/-- C3: `to_local_date` handles the three resolutions of the civil lookup
`Local.from_local_date`: no valid instant yields `Err("Invalid date")`;
a unique instant is returned as-is; for a DST fall-back ambiguity —
chrono returns `Ambiguous(earliest, latest)`, both candidates carrying the
queried naive date, the earliest being the one with the larger UTC offset —
`cmp::min` deterministically picks the first, i.e. the earlier of the two. -/
theorem c3_to_local_date_cases :
    (∀ (tz : TZ) (d : CalDate), tz.fromLocalDate d = .absent →
      to_local_date tz d = Except.error ("Invalid date")) ∧
    (∀ (tz : TZ) (d : CalDate) (ld : LDate), tz.fromLocalDate d = .single ld →
      to_local_date tz d = Except.ok ld) ∧
    (∀ (tz : TZ) (d : CalDate) (l r : LDate), tz.fromLocalDate d = .ambiguous l r →
      l.naive = d → r.naive = d → r.off ≤ l.off →
      to_local_date tz d = Except.ok l ∧ ∀ x ∈ [l, r], x.off ≤ l.off) := by
  refine ⟨?_, ?_, ?_⟩
  · intro tz d habs
    unfold to_local_date
    rw [habs]
  · intro tz d ld hsing
    unfold to_local_date
    rw [hsing]
  · intro tz d l r hamb hl hr hoff
    unfold to_local_date
    rw [hamb]
    unfold rustMinLDate
    dsimp only
    have hcal : calLE l.naive r.naive = true := by
      rw [hl, hr, calLE_iff]
      unfold CalDate.le
      omega
    rw [if_pos hcal]
    exact ⟨rfl, by simp [hoff]⟩

theorem c3_to_local_date_cases_witness :
    to_local_date gapTZ ⟨2024, 1, 1⟩ = Except.error ("Invalid date") ∧
      to_local_date utcTZ ⟨2024, 1, 1⟩ = Except.ok ⟨⟨2024, 1, 1⟩, 0⟩ ∧
      to_local_date ambTZ ⟨2024, 1, 1⟩ = Except.ok ⟨⟨2024, 1, 1⟩, 3600⟩ :=
  ⟨c3_to_local_date_cases.1 gapTZ ⟨2024, 1, 1⟩ rfl,
    c3_to_local_date_cases.2.1 utcTZ ⟨2024, 1, 1⟩ ⟨⟨2024, 1, 1⟩, 0⟩ rfl,
    (c3_to_local_date_cases.2.2 ambTZ ⟨2024, 1, 1⟩ ⟨⟨2024, 1, 1⟩, 3600⟩
      ⟨⟨2024, 1, 1⟩, 0⟩ rfl rfl rfl (by decide)).1⟩

set_option maxHeartbeats 1000000 in
theorem dtLE_iff (a b : DT) : dtLE a b = true ↔ DT.le a b := by
  unfold dtLE DT.le
  split_ifs <;>
    simp only [decide_eq_true_eq, eq_self_iff_true, true_iff, false_iff,
      Bool.false_eq_true] <;>
    omega

instance : IsTotal Meeting meetingLE :=
  ⟨by
    intro a b
    unfold meetingLE
    rw [dtLE_iff, dtLE_iff]
    unfold DT.le
    omega⟩

instance : IsTrans Meeting meetingLE :=
  ⟨by
    intro a b c hab hbc
    unfold meetingLE at *
    rw [dtLE_iff] at *
    unfold DT.le at *
    omega⟩

theorem not_meetingLE_ne (a b : Meeting) (h : ¬ meetingLE a b) :
    b.timestamp ≠ a.timestamp := by
  intro he
  apply h
  unfold meetingLE
  rw [dtLE_iff, he]
  unfold DT.le
  omega

theorem orderedInsert_filter_eq (a : Meeting) (l : List Meeting) (k : DT)
    (hk : a.timestamp = k) :
    (List.orderedInsert meetingLE a l).filter (fun x => x.timestamp == k) =
      a :: l.filter (fun x => x.timestamp == k) := by
  induction l with
  | nil => simp [List.orderedInsert, List.filter, hk]
  | cons b t ih =>
    rw [List.orderedInsert]
    by_cases h : meetingLE a b
    · rw [if_pos h, List.filter_cons, List.filter_cons]
      simp [hk]
    · rw [if_neg h, List.filter_cons]
      have hbk : (b.timestamp == k) = false := by
        rw [beq_eq_false_iff_ne, ← hk]
        exact not_meetingLE_ne a b h
      rw [hbk, if_neg Bool.false_ne_true, ih, List.filter_cons, hbk,
        if_neg Bool.false_ne_true]
  

theorem orderedInsert_filter_ne (a : Meeting) (l : List Meeting) (k : DT)
    (hk : a.timestamp ≠ k) :
    (List.orderedInsert meetingLE a l).filter (fun x => x.timestamp == k) =
      l.filter (fun x => x.timestamp == k) := by
  have hak : (a.timestamp == k) = false := beq_eq_false_iff_ne.mpr hk
  induction l with
  | nil =>
    simp only [List.orderedInsert, List.filter, hak]
  | cons b t ih =>
    rw [List.orderedInsert]
    by_cases h : meetingLE a b
    · rw [if_pos h, List.filter_cons, hak, if_neg Bool.false_ne_true]
    · rw [if_neg h, List.filter_cons, List.filter_cons, ih]

theorem insertionSort_filter (l : List Meeting) (k : DT) :
    (List.insertionSort meetingLE l).filter (fun x => x.timestamp == k) =
      l.filter (fun x => x.timestamp == k) := by
  induction l with
  | nil => rfl
  | cons a t ih =>
    rw [List.insertionSort]
    by_cases hk : a.timestamp = k
    · rw [orderedInsert_filter_eq a _ k hk, ih, List.filter_cons,
        beq_iff_eq.mpr hk, if_pos rfl]
    · rw [orderedInsert_filter_ne a _ k hk, ih, List.filter_cons,
        beq_eq_false_iff_ne.mpr hk, if_neg Bool.false_ne_true]

/-- C7: Sorted output: for every file content and filter, the collection
returned by `load_records` is sorted ascending by timestamp (the sort key is
the timestamp only), it is a permutation of the decoded-and-filtered lines,
and the sort is stable: the records having any fixed timestamp appear in
exactly their file order. -/
theorem c7_sorted_stable (content : List Char) (f : Meeting → Bool) :
    List.Sorted meetingLE (load_records content f) ∧
      List.Perm (load_records content f)
        (((linesOf content).filterMap parse_meeting).filter f) ∧
      ∀ k : DT,
        (load_records content f).filter (fun x => x.timestamp == k) =
          (((linesOf content).filterMap parse_meeting).filter f).filter
            (fun x => x.timestamp == k) :=
  ⟨List.sorted_insertionSort _ _, List.perm_insertionSort _ _,
    fun k => insertionSort_filter _ k⟩

/-- C4: Lenient decode: `load_records` decodes each line independently and
drops every line that fails to decode (`parse_meeting` returns `none`, never
an error), returning exactly the successfully decoded records that pass the
filter; in particular a file with one well-formed line and one garbage line
yields exactly that one record, with no error raised. -/
theorem c4_lenient_decode :
    (∀ (content : List Char) (f : Meeting → Bool) (m : Meeting),
      m ∈ load_records content f ↔
        (∃ line ∈ linesOf content, parse_meeting line = some m) ∧ f m = true) ∧
      load_records contentC4 (fun _ => true) = [mtgC4] := by
  constructor
  · intro content f m
    unfold load_records
    rw [List.mem_insertionSort, List.mem_filter, List.mem_filterMap]
  · decide

/-! ### The remaining claims: reversed range, argument defaulting, append-only
log, and hour-range safety -/

theorem tenths_zero : tenths 0 = 0 := by
  unfold tenths fl53
  norm_num
  unfold rhe
  norm_num

theorem totalLine_zero : totalLine 0 = "Total hours: 0.0" := by
  unfold totalLine
  rw [tenths_zero]
  rfl

/-- Every record fails the range filter when the end date precedes the start
date. -/
theorem is_within_range_rev_false (tz : TZ) (x : Meeting) (ds de : LDate)
    (hrev : ¬ CalDate.le ds.naive de.naive) :
    Meeting.is_within_range tz x ds de = false := by
  rw [Bool.eq_false_iff, Ne]
  intro h
  rw [Meeting.is_within_range, Bool.and_eq_true, calLE_iff, calLE_iff] at h
  apply hrev
  unfold CalDate.le at *
  omega

theorem filter_false_nil (l : List Meeting) (f : Meeting → Bool)
    (hf : ∀ x, f x = false) : l.filter f = [] := by
  induction l with
  | nil => rfl
  | cons a t ih => rw [List.filter_cons, hf a, if_neg Bool.false_ne_true, ih]

/-- C6: Reversed range yields empty output: when the end date is earlier than
the start date (and both dates resolve in the local timezone, resolution
preserving the naive date, as chrono guarantees), `list` selects no records —
the range filter excludes everything — and the output is exactly the single
line `Total hours: 0.0`; no reversed-range validation error is raised. -/
theorem c6_reversed_range_empty (env : Env) (s e : CalDate) (ds de : LDate)
    (hrev : ¬ CalDate.le s e)
    (hs : to_local_date env.tz s = Except.ok ds) (hsn : ds.naive = s)
    (he : to_local_date env.tz e = Except.ok de) (hen : de.naive = e) :
    list env (some s) (some e) = Except.ok ["Total hours: 0.0"] := by
  have hfalse : ∀ x, Meeting.is_within_range env.tz x ds de = false :=
    fun x => is_within_range_rev_false env.tz x ds de (by rw [hsn, hen]; exact hrev)
  show list_range env s e = _
  unfold list_range
  rw [hs, he]
  show Except.ok (print_records env.tz (load_records env.content _)) = _
  unfold load_records
  rw [filter_false_nil _ _ hfalse]
  show Except.ok (print_records env.tz []) = _
  unfold print_records printAux
  rw [totalLine_zero]

theorem c6_reversed_range_empty_witness :
    list envW (some ⟨2024, 1, 2⟩) (some ⟨2024, 1, 1⟩) =
      Except.ok ["Total hours: 0.0"] :=
  c6_reversed_range_empty envW ⟨2024, 1, 2⟩ ⟨2024, 1, 1⟩ ⟨⟨2024, 1, 2⟩, 0⟩
    ⟨⟨2024, 1, 1⟩, 0⟩ (by unfold CalDate.le; decide) rfl rfl rfl rfl

/-- C8: `list` argument defaulting: one date `d` queries the one-day window
`[d, d]` — literally the same computation as the two-argument call with both
ends `d` — and no arguments queries `[today, today]`, which agrees with the
two-argument call on today's naive date whenever that date resolves in the
local timezone (resolution preserving the naive date, which is all the range
filter compares). -/
theorem c8_list_defaulting :
    (∀ (env : Env) (d : CalDate),
      list env (some d) none = list env (some d) (some d)) ∧
    (∀ (env : Env) (d' : LDate),
      to_local_date env.tz env.todayD.naive = Except.ok d' →
      d'.naive = env.todayD.naive →
      list env none none =
        list env (some env.todayD.naive) (some env.todayD.naive)) := by
  constructor
  · intro env d
    show list_date env d = list_range env d d
    unfold list_date list_range
    cases h : to_local_date env.tz d with
    | error err => rfl
    | ok d' => rfl
  · intro env d' hres hnaive
    show list_today env = list_range env _ _
    unfold list_today list_range
    rw [hres]
    show Except.ok _ = Except.ok _
    have hfun : (fun x => Meeting.is_within_range env.tz x env.todayD env.todayD) =
        (fun x => Meeting.is_within_range env.tz x d' d') := by
      funext x
      unfold Meeting.is_within_range
      rw [hnaive]
    rw [hfun]

theorem c8_list_defaulting_witness :
    list envW (some ⟨2024, 1, 5⟩) none =
        list envW (some ⟨2024, 1, 5⟩) (some ⟨2024, 1, 5⟩) ∧
      list envW none none =
        list envW (some ⟨2024, 1, 2⟩) (some ⟨2024, 1, 2⟩) :=
  ⟨c8_list_defaulting.1 envW ⟨2024, 1, 5⟩,
    c8_list_defaulting.2 envW ⟨⟨2024, 1, 2⟩, 0⟩ rfl rfl⟩

/-- C9: Append-only frame property: `log` appends exactly one encoded line
followed by a newline terminator, leaving all previously stored bytes
unchanged (the old content is a prefix of the new), and no command of the
program mutates or deletes existing bytes — `list` leaves the file
untouched. -/
theorem c9_append_only :
    (∀ (env : Env) (s l : Nat) (st st' : List Char),
      runCmd env (.log s l) st = some st' →
      ∃ m, Meeting.today env.tz env.todayD s l = some m ∧
        st' = st ++ (encodeMeeting m ++ ['\n'])) ∧
    (∀ (env : Env) (c : Cmd) (st st' : List Char),
      runCmd env c st = some st' → st <+: st') := by
  have hlog : ∀ (env : Env) (s l : Nat) (st st' : List Char),
      runCmd env (.log s l) st = some st' →
      ∃ m, Meeting.today env.tz env.todayD s l = some m ∧
        st' = st ++ (encodeMeeting m ++ ['\n']) := by
    intro env s l st st' h
    unfold runCmd logAppend at h
    dsimp only at h
    cases hm : Meeting.today env.tz env.todayD s l with
    | none => rw [hm] at h; exact absurd h (by simp)
    | some m =>
      rw [hm] at h
      have h2 : some (st ++ encodeMeeting m ++ ['\n']) = some st' := h
      rw [Option.some.injEq] at h2
      exact ⟨m, rfl, by rw [← h2, List.append_assoc]⟩
  refine ⟨hlog, ?_⟩
  intro env c st st' h
  cases c with
  | log s l =>
    obtain ⟨m, _, hst⟩ := hlog env s l st st' h
    rw [hst]
    exact List.prefix_append st _
  | list s e =>
    unfold runCmd at h
    rw [Option.some.injEq] at h
    rw [h]

theorem c9_append_only_witness :
    runCmd envW (.log 13 60) [] =
        some (encodeMeeting ⟨⟨⟨2024, 1, 2⟩, 13, 0, 0⟩, 60⟩ ++ ['\n']) ∧
      [] <+: (encodeMeeting ⟨⟨⟨2024, 1, 2⟩, 13, 0, 0⟩, 60⟩ ++ ['\n']) :=
  ⟨by decide,
    c9_append_only.2 envW (.log 13 60) []
      (encodeMeeting ⟨⟨⟨2024, 1, 2⟩, 13, 0, 0⟩, 60⟩ ++ ['\n']) (by decide)⟩

/-- C10: `Meeting::today` is total only when `start ≤ 23` and the local
civil lookup for today at `start:00:00` resolves uniquely: any `start`
outside 0-23 makes the time construction panic (modeled as `none`) rather
than return an error value, a successful construction implies `start ≤ 23`
and a unique resolution, and consequently the `log` subcommand never appends
a record built from an out-of-range hour. -/
theorem c10_log_hour_range :
    (∀ (tz : TZ) (td : LDate) (s l : Nat), 24 ≤ s →
      Meeting.today tz td s l = none) ∧
    (∀ (tz : TZ) (td : LDate) (s l : Nat) (m : Meeting),
      Meeting.today tz td s l = some m →
      s ≤ 23 ∧ ∃ off, tz.fromLocalDT ⟨td.naive, s, 0, 0⟩ = .single off) ∧
    (∀ (env : Env) (s l : Nat) (st st' : List Char),
      runCmd env (.log s l) st = some st' → s ≤ 23) := by
  have hpart2 : ∀ (tz : TZ) (td : LDate) (s l : Nat) (m : Meeting),
      Meeting.today tz td s l = some m →
      s ≤ 23 ∧ ∃ off, tz.fromLocalDT ⟨td.naive, s, 0, 0⟩ = .single off := by
    intro tz td s l m h
    unfold Meeting.today at h
    by_cases hs : 24 ≤ s
    · rw [if_pos hs] at h; exact absurd h (by simp)
    · rw [if_neg hs] at h
      refine ⟨by omega, ?_⟩
      cases hres : tz.fromLocalDT ⟨td.naive, s, 0, 0⟩ with
      | single off => exact ⟨off, rfl⟩
      | absent => rw [hres] at h; exact absurd h (by simp)
      | ambiguous a b => rw [hres] at h; exact absurd h (by simp)
  refine ⟨?_, hpart2, ?_⟩
  · intro tz td s l hs
    unfold Meeting.today
    rw [if_pos hs]
  · intro env s l st st' h
    unfold runCmd logAppend at h
    dsimp only at h
    cases hm : Meeting.today env.tz env.todayD s l with
    | none => rw [hm] at h; exact absurd h (by simp)
    | some m => exact (hpart2 env.tz env.todayD s l m hm).1

theorem c10_log_hour_range_witness :
    Meeting.today utcTZ ⟨⟨2024, 1, 2⟩, 0⟩ 25 30 = none ∧
      (13 ≤ 23 ∧ ∃ off,
        utcTZ.fromLocalDT ⟨(⟨⟨2024, 1, 2⟩, 0⟩ : LDate).naive, 13, 0, 0⟩ =
          .single off) :=
  ⟨c10_log_hour_range.1 utcTZ ⟨⟨2024, 1, 2⟩, 0⟩ 25 30 (by omega),
    c10_log_hour_range.2.1 utcTZ ⟨⟨2024, 1, 2⟩, 0⟩ 13 30
      ⟨⟨⟨2024, 1, 2⟩, 13, 0, 0⟩, 30⟩ (by decide)⟩

/-! ### Accuracy of the rendered total -/

theorem rhe_abs (x : ℚ) : |(rhe x : ℚ) - x| ≤ 1 / 2 := by
  unfold rhe
  have h1 : (⌊x⌋ : ℚ) ≤ x := Int.floor_le x
  have h2 : x < ⌊x⌋ + 1 := Int.lt_floor_add_one x
  split_ifs with ha hb hc <;> rw [abs_le] <;> push_cast <;>
    constructor <;> linarith

theorem rhe_eq_near (x : ℚ) (n : ℤ) (h : |x - n| < 1 / 2) : rhe x = n := by
  rw [abs_lt] at h
  unfold rhe
  by_cases hx : (n : ℚ) ≤ x
  · have hf : ⌊x⌋ = n := by
      rw [Int.floor_eq_iff]
      exact ⟨hx, by linarith [h.2]⟩
    rw [hf, if_pos (by linarith [h.2])]
  · push_neg at hx
    have hf : ⌊x⌋ = n - 1 := by
      rw [Int.floor_eq_iff]
      push_cast
      constructor <;> linarith [h.1]
    rw [hf, if_neg (by push_cast; linarith [h.1]),
      if_pos (by push_cast; linarith [h.1])]
    omega

theorem fl53_pos_err (q : ℚ) (h0 : 0 < q) :
    |fl53 q - q| ≤ (2 : ℚ) ^ (Int.log 2 q - 53) := by
  unfold fl53
  rw [if_neg (ne_of_gt h0)]
  have hzp : (0 : ℚ) < 2 ^ (Int.log 2 q - 52 : ℤ) := zpow_pos (by norm_num) _
  have hkey : ((rhe (q * 2 ^ (52 - Int.log 2 q)) : ℚ) * 2 ^ (Int.log 2 q - 52)) - q =
      ((rhe (q * 2 ^ (52 - Int.log 2 q)) : ℚ) - q * 2 ^ (52 - Int.log 2 q)) *
        2 ^ (Int.log 2 q - 52) := by
    rw [sub_mul, mul_assoc, ← zpow_add₀ (two_ne_zero (α := ℚ))]
    norm_num
  rw [hkey, abs_mul, abs_of_pos hzp]
  calc |(rhe (q * 2 ^ (52 - Int.log 2 q)) : ℚ) - q * 2 ^ (52 - Int.log 2 q)| *
        2 ^ (Int.log 2 q - 52)
      ≤ (1 / 2) * 2 ^ (Int.log 2 q - 52) := by
        exact mul_le_mul_of_nonneg_right (rhe_abs _) (le_of_lt hzp)
    _ = 2 ^ (Int.log 2 q - 53) := by
        rw [show (1 : ℚ) / 2 = 2 ^ (-1 : ℤ) by norm_num,
          ← zpow_add₀ (two_ne_zero (α := ℚ))]
        congr 1
        omega

theorem tenths_accuracy (m : Nat) (hm : m < 4294967296) :
    |6 * tenths m - (m : ℤ)| ≤ 3 ∧
      ((6 : Nat) ∣ m → 6 * tenths m = (m : ℤ)) := by
  by_cases hz : m = 0
  · subst hz
    rw [tenths_zero]
    norm_num
  · have h0 : (0 : ℚ) < (m : ℚ) / 60 := by
      apply div_pos _ (by norm_num)
      exact_mod_cast Nat.pos_of_ne_zero hz
  -- exponent bound
    have hq27 : (m : ℚ) / 60 < ((2 : ℕ) : ℚ) ^ (27 : ℤ) := by
      rw [div_lt_iff₀ (by norm_num)]
      have hcast : ((2 : ℕ) : ℚ) ^ (27 : ℤ) = 134217728 := by norm_num
      rw [hcast]
      calc (m : ℚ) < 4294967296 := by exact_mod_cast hm
        _ ≤ 134217728 * 60 := by norm_num
    have he : Int.log 2 ((m : ℚ) / 60) ≤ 26 := by
      have hlog := (Int.lt_zpow_iff_log_lt (b := 2) (by norm_num) h0).mp hq27
      omega
    have herr : |fl53 ((m : ℚ) / 60) - (m : ℚ) / 60| ≤ (2 : ℚ) ^ (-27 : ℤ) := by
      calc |fl53 ((m : ℚ) / 60) - (m : ℚ) / 60|
          ≤ 2 ^ (Int.log 2 ((m : ℚ) / 60) - 53) := fl53_pos_err _ h0
        _ ≤ (2 : ℚ) ^ (-27 : ℤ) :=
            zpow_le_zpow_right₀ (by norm_num) (by omega)
    have hsmall : (2 : ℚ) ^ (-27 : ℤ) ≤ 1 / 100000000 := by
      rw [show ((-27 : ℤ)) = -(27 : ℤ) from rfl, zpow_neg]
      norm_num
    have h1 : |(rhe (10 * fl53 ((m : ℚ) / 60)) : ℚ) - 10 * fl53 ((m : ℚ) / 60)| ≤
        1 / 2 := rhe_abs _
    have h2 : |10 * fl53 ((m : ℚ) / 60) - 10 * ((m : ℚ) / 60)| ≤
        10 * (2 : ℚ) ^ (-27 : ℤ) := by
      rw [← mul_sub, abs_mul, abs_of_pos (show (0:ℚ) < 10 by norm_num)]
      exact mul_le_mul_of_nonneg_left herr (by norm_num)
    have h3 : |(rhe (10 * fl53 ((m : ℚ) / 60)) : ℚ) - 10 * ((m : ℚ) / 60)| ≤
        1 / 2 + 10 * (2 : ℚ) ^ (-27 : ℤ) := by
      calc |(rhe (10 * fl53 ((m : ℚ) / 60)) : ℚ) - 10 * ((m : ℚ) / 60)|
          ≤ |(rhe (10 * fl53 ((m : ℚ) / 60)) : ℚ) - 10 * fl53 ((m : ℚ) / 60)| +
            |10 * fl53 ((m : ℚ) / 60) - 10 * ((m : ℚ) / 60)| := abs_sub_le _ _ _
        _ ≤ 1 / 2 + 10 * (2 : ℚ) ^ (-27 : ℤ) := add_le_add h1 h2
    have h10q : (10 : ℚ) * ((m : ℚ) / 60) = (m : ℚ) / 6 := by ring
    rw [h10q] at h3
    have htQ : |6 * (tenths m : ℚ) - (m : ℚ)| < 4 := by
      unfold tenths
      rw [abs_le] at h3
      rw [abs_lt]
      constructor <;> linarith [h3.1, h3.2, hsmall]
    have htZ : |6 * tenths m - (m : ℤ)| < 4 := by
      have hcast : ((|6 * tenths m - (m : ℤ)| : ℤ) : ℚ) =
          |6 * (tenths m : ℚ) - (m : ℚ)| := by
        push_cast
        rfl
      have := htQ
      rw [← hcast] at this
      exact_mod_cast this
    refine ⟨by omega, ?_⟩
    rintro ⟨k, hk⟩
    have hqk : (10 : ℚ) * ((m : ℚ) / 60) = (k : ℚ) := by
      rw [hk]
      push_cast
      ring
    have hnear : |10 * fl53 ((m : ℚ) / 60) - ((k : ℤ) : ℚ)| < 1 / 2 := by
      rw [show (((k : ℤ) : ℚ)) = (k : ℚ) by push_cast; rfl, ← hqk]
      calc |10 * fl53 ((m : ℚ) / 60) - 10 * ((m : ℚ) / 60)| ≤
          10 * (2 : ℚ) ^ (-27 : ℤ) := h2
        _ < 1 / 2 := by linarith [hsmall]
    have hv : tenths m = (k : ℤ) := rhe_eq_near _ _ hnear
    rw [hv]
    omega

theorem printAux_eq (tz : TZ) : ∀ (l : List Meeting) (acc : Nat),
    printAux tz l acc =
      l.map (displayMeeting tz) ++
        [totalLine (l.foldl (fun a r => a + r.length) acc)] := by
  intro l
  induction l with
  | nil => intro acc; rfl
  | cons r t ih =>
    intro acc
    simp only [printAux, List.map_cons, List.cons_append, List.foldl_cons]
    rw [ih]

/-- C5: Sum correctness: `print_records` prints one display line per included
record and then exactly one total line, `"Total hours: "` followed by the
one-decimal rendering of `f64::from(minutes) / 60.0` where `minutes` is the
sum of the `length` fields; the rendered tenths value is within half a tenth
of the exact quotient `minutes / 60` (the one-decimal rendering of the sum
divided by 60), and it equals the exact quotient whenever `minutes / 60` has
an exact one-decimal representation (`6 ∣ minutes`). -/
theorem c5_total_hours (tz : TZ) (recs : List Meeting)
    (hm : totalMinutes recs < 4294967296) :
    print_records tz recs =
        recs.map (displayMeeting tz) ++ [totalLine (totalMinutes recs)] ∧
      |(tenths (totalMinutes recs) : ℚ) / 10 -
          (totalMinutes recs : ℚ) / 60| ≤ 1 / 20 ∧
      ((6 : Nat) ∣ totalMinutes recs →
        6 * tenths (totalMinutes recs) = (totalMinutes recs : ℤ)) := by
  obtain ⟨hacc, hexact⟩ := tenths_accuracy (totalMinutes recs) hm
  refine ⟨?_, ?_, hexact⟩
  · unfold print_records totalMinutes
    exact printAux_eq tz recs 0
  · have hQ : |6 * (tenths (totalMinutes recs) : ℚ) - (totalMinutes recs : ℚ)| ≤
        3 := by
      have hcast : ((|6 * tenths (totalMinutes recs) -
          ((totalMinutes recs : Nat) : ℤ)| : ℤ) : ℚ) =
          |6 * (tenths (totalMinutes recs) : ℚ) - (totalMinutes recs : ℚ)| := by
        push_cast
        rfl
      have h := hacc
      rw [show (3 : ℤ) = ((3 : ℤ) : ℤ) from rfl] at h
      calc |6 * (tenths (totalMinutes recs) : ℚ) - (totalMinutes recs : ℚ)|
          = ((|6 * tenths (totalMinutes recs) -
              ((totalMinutes recs : Nat) : ℤ)| : ℤ) : ℚ) := hcast.symm
        _ ≤ 3 := by exact_mod_cast h
    have hE : (tenths (totalMinutes recs) : ℚ) / 10 -
        (totalMinutes recs : ℚ) / 60 =
        (6 * (tenths (totalMinutes recs) : ℚ) - (totalMinutes recs : ℚ)) / 60 := by
      ring
    rw [hE, abs_div, abs_of_pos (show (0 : ℚ) < 60 by norm_num)]
    calc |6 * (tenths (totalMinutes recs) : ℚ) - (totalMinutes recs : ℚ)| / 60
        ≤ 3 / 60 := by gcongr
      _ = 1 / 20 := by norm_num

theorem c5_total_hours_witness :
    totalMinutes [mtgW] < 4294967296 ∧
      print_records utcTZ [mtgW] =
        [mtgW].map (displayMeeting utcTZ) ++ [totalLine (totalMinutes [mtgW])] :=
  ⟨by decide, (c5_total_hours utcTZ [mtgW] (by decide)).1⟩
